import Mathlib

/-!
Verification of the gb blob storage and retrieval subsystem

A shallow embedding, in Lean 4, of the retrieval (`cat`) and audit
(`blob paranoia`) paths of the gb backup engine, together with the
supporting utilities (`FormatHTTPRange`, the `Reader`/`ReadCloser`
conversions) and the relational data model they read.

Modelling conventions:
* byte streams are `List Nat` (each element one byte);
* SQL tables are lists of row structures mirroring the columns of the schema;
* the stream cipher (`crypto.DecryptBlobEntry`), the compression registry
  (`compression.ByAlgName(..).Decompress`) and SHA-256 live outside the
  covered sources, so they are modelled from the spec: the cipher as an
  xor keystream addressed by absolute blob offset (spec says a seekable
  stream cipher, a length-preserving stateless transform), compression
  and the digest as function parameters of the theorems;
* Go `panic` terminates the process: a function whose Go signature has no
  error return is embedded with `Option`/`CatOutcome` where `none` /
  `terminated` is precisely a panic.
-/

namespace GB

/-- A byte stream: each element is one byte. -/
abbrev Bytes := List Nat

/-- A row of the `hashes` table (`hash`, `size`). -/
structure HashRow where
  hash : Bytes
  size : Nat
deriving DecidableEq

/-- A row of the `blobs` table as read by the covered code
(`blob_id`, `encryption_key`, `padding_key`, `size`, `final_hash`;
the spec calls the last column `hash_post_enc`). -/
structure BlobRow where
  blob_id : Bytes
  encryption_key : Bytes
  padding_key : Bytes
  size : Nat
  final_hash : Bytes
deriving DecidableEq

/-- A row of the `blob_entries` table as read by the covered code
(`hash`, `blob_id`, `final_size`, `offset`, `compression_alg`, and the
per-entry `encryption_key` column that `BlobReaderParanoia` selects,
held in field `key`). -/
structure EntryRow where
  hash : Bytes
  blob_id : Bytes
  final_size : Nat
  offset : Nat
  compression_alg : String
  key : Bytes
deriving DecidableEq

/-- A row of the `blob_storage` (placement) table. -/
structure PlacementRow where
  blob_id : Bytes
  storage_id : Bytes
  path : String
deriving DecidableEq

/-- A row of the `storage` table. -/
structure StorageRow where
  storage_id : Bytes
  readable_label : String
  kind : String
  identifier : String
  root_path : String
deriving DecidableEq

/-- The relational database state read by the covered code. -/
structure DB where
  hashes : List HashRow
  blobs : List BlobRow
  blob_entries : List EntryRow
  blob_storage : List PlacementRow
  storage : List StorageRow

/-- Lookup in `hashes` by primary key (first matching row). -/
def lookupHash (db : DB) (h : Bytes) : Option HashRow :=
  db.hashes.find? (fun r => r.hash == h)

/-- Lookup in `blobs` by primary key (first matching row), as in
`SELECT .. FROM blobs WHERE blob_id = ?`. -/
def lookupBlob (db : DB) (blobID : Bytes) : Option BlobRow :=
  db.blobs.find? (fun b => b.blob_id == blobID)

/-- Modelled from the spec (§4.3): `crypto.DecryptBlobEntry(src, offset, key)`
is a seekable stream cipher whose keystream `ks key` is addressed by the
absolute byte offset inside the blob; decryption xors each input byte with
the keystream byte at its offset. It is a stateless, length-preserving
transform, and (being xor) its own inverse at the same offset and key. -/
def decryptBlobEntry (ks : Bytes → Nat → Nat) (key : Bytes) : Nat → Bytes → Bytes
  | _, [] => []
  | off, b :: rest => (b ^^^ ks key off) :: decryptBlobEntry ks key (off + 1) rest

/-- Modelled from the spec (§6): the packer stores each entry encrypted under
the same keystream construction; written separately from `decryptBlobEntry`
so that the recorded blob layout can be stated with it. -/
def encryptBlobEntry (ks : Bytes → Nat → Nat) (key : Bytes) : Nat → Bytes → Bytes
  | _, [] => []
  | off, b :: rest => (b ^^^ ks key off) :: encryptBlobEntry ks key (off + 1) rest

/-- The embedding of `storage.DownloadSection(path, offset, length)` on an object whose full
contents are `obj`: the bytes `[offset, offset+length)` (spec §4.2). -/
def downloadSection (obj : Bytes) (offset length : Nat) : Bytes :=
  (obj.drop offset).take length

/-- Byte-wise lexicographic order on byte lists; `true` iff `a` sorts no
later than `b`. This is the default SQLite BINARY collation used by
`ORDER BY storage.readable_label`. -/
def lexLeb : List Nat → List Nat → Bool
  | [], _ => true
  | _ :: _, [] => false
  | a :: as, b :: bs => if a < b then true else if b < a then false else lexLeb as bs

/-- The `ORDER BY readable_label` comparison on labels (byte-wise
lexicographic on the character codes of the label). -/
def labelLE (a b : String) : Prop :=
  lexLeb (a.data.map Char.toNat) (b.data.map Char.toNat) = true

instance : DecidableRel labelLE := fun _ _ =>
  inferInstanceAs (Decidable (_ = true))

/-- One row of the joined retrieval query in `CatReadCloser`:
`blob_entries ⋈ blobs ⋈ blob_storage ⋈ storage` restricted to one hash. -/
structure CatRow where
  blob_id : Bytes
  offset : Nat
  final_size : Nat
  compression_alg : String
  key : Bytes
  path : String
  storage_id : Bytes
  kind : String
  identifier : String
  root_path : String
  readable_label : String
deriving DecidableEq

/-- The unordered result set of the SELECT in `CatReadCloser`: inner joins of
`blob_entries` (on the requested hash) with `blobs`, `blob_storage` and
`storage`, carrying exactly the selected columns (plus the label the rows
are ordered by). -/
def catJoinRows (db : DB) (h : Bytes) : List CatRow :=
  (db.blob_entries.filter (fun e => e.hash == h)).flatMap fun e =>
    (db.blobs.filter (fun b => b.blob_id == e.blob_id)).flatMap fun b =>
      (db.blob_storage.filter (fun p => p.blob_id == b.blob_id)).flatMap fun p =>
        (db.storage.filter (fun s => s.storage_id == p.storage_id)).map fun s =>
          { blob_id := e.blob_id
            offset := e.offset
            final_size := e.final_size
            compression_alg := e.compression_alg
            key := b.encryption_key
            path := p.path
            storage_id := s.storage_id
            kind := s.kind
            identifier := s.identifier
            root_path := s.root_path
            readable_label := s.readable_label }

/-- The `ORDER BY storage.readable_label` ordering on joined rows. -/
def catRowLE (a b : CatRow) : Prop :=
  labelLE a.readable_label b.readable_label

instance : DecidableRel catRowLE := fun _ _ =>
  inferInstanceAs (Decidable (labelLE _ _))

/-- The query result of CatReadCloser: the joined rows ordered by
`readable_label`; `QueryRow.Scan` takes the first row, or fails with
`sql.ErrNoRows` when there is none. -/
def catQuery (db : DB) (h : Bytes) : Option CatRow :=
  (List.insertionSort catRowLE (catJoinRows db h)).head?

/-- Outcome of `CatReadCloser`: its Go signature returns only an
`io.ReadCloser`, so every failure is a `panic`, i.e. process termination,
modelled by `terminated`. -/
inductive CatOutcome where
  | stream (bytes : Bytes)
  | terminated
deriving DecidableEq

/-- The embedding of `download.CatReadCloser(hash, tx)`: resolve the joined row for `hash`
(panicking when there is none), download the byte range of the entry from the
selected placement, decrypt it with the `encryption_key` of the blob at the
offset of the entry, and decompress with the algorithm of the entry. `fetch` maps a
`(storage_id, path)` pair to the full stored object; `decompress` is the
compression registry, `ks` the cipher keystream. -/
def CatReadCloser (ks : Bytes → Nat → Nat) (decompress : String → Bytes → Bytes)
    (fetch : Bytes → String → Bytes) (db : DB) (h : Bytes) : CatOutcome :=
  match catQuery db h with
  | none => .terminated
  | some r =>
      .stream (decompress r.compression_alg
        (decryptBlobEntry ks r.key r.offset
          (downloadSection (fetch r.storage_id r.path) r.offset r.final_size)))

/-- The ordering key of the entry query in `BlobReaderParanoia`,
`ORDER BY offset, final_size` (both ascending). -/
def entryLE (a b : EntryRow) : Prop :=
  a.offset < b.offset ∨ (a.offset = b.offset ∧ a.final_size ≤ b.final_size)

instance : DecidableRel entryLE := fun _ _ =>
  inferInstanceAs (Decidable (_ ∨ _))

/-- The rows of `SELECT .. FROM blob_entries WHERE blob_id = ?
ORDER BY offset, final_size`, in the order the cursor yields them. -/
def sortedEntries (db : DB) (blobID : Bytes) : List EntryRow :=
  List.insertionSort entryLE (db.blob_entries.filter (fun e => e.blob_id == blobID))

/-- The bytes the entry loop drains from the teed stream for one entry:
the cipher wraps the stream and `io.LimitReader` bounds it to
`final_size` bytes, so at most `fsize` of the not-yet-consumed bytes. -/
def chunkAt (data : Bytes) (consumed fsize : Nat) : Bytes :=
  (data.drop consumed).take fsize

/-- The per-entry loop of `BlobReaderParanoia`, on the downloaded stream
`data`. `consumed` is `hasherPostEnc.Size()`, the count of encrypted
bytes read so far. For each row in order: panic unless the count equals
the offset of the entry; drain the entry through decrypt, limit and
decompress; panic unless the count now equals offset + final_size; panic
unless the drained plaintext hashes to the recorded hash of the entry.
Returns the final count, `none` on any panic. -/
def paranoiaLoop (sha : Bytes → Bytes) (decompress : String → Bytes → Bytes)
    (ks : Bytes → Nat → Nat) (data : Bytes) :
    Nat → List EntryRow → Option Nat
  | consumed, [] => some consumed
  | consumed, e :: rest =>
    if consumed ≠ e.offset then none
    else if consumed + (chunkAt data consumed e.final_size).length ≠
        e.offset + e.final_size then none
    else if sha (decompress e.compression_alg
        (decryptBlobEntry ks e.key e.offset (chunkAt data consumed e.final_size))) ≠
        e.hash then none
    else paranoiaLoop sha decompress ks data
        (consumed + (chunkAt data consumed e.final_size).length) rest

/-- The check `bytes.Equal(bs, make([]byte, len(bs)))`: every byte of `bs` is zero. -/
def allZero (bs : Bytes) : Prop :=
  bs = List.replicate bs.length 0

instance : DecidablePred allZero := fun _ =>
  inferInstanceAs (Decidable (_ = _))

/-- The tail of `BlobReaderParanoia` after the blob row is resolved: run
the entry loop, then drain the remaining bytes through
`decrypt_blob_entry(·, count, padding_key)` and panic unless they are all
zero, panic unless the total count equals the recorded blob size, and
panic unless the digest of the whole downloaded stream equals the
recorded `final_hash`; on success return the blob size. -/
def blobParanoiaChecks (sha : Bytes → Bytes) (decompress : String → Bytes → Bytes)
    (ks : Bytes → Nat → Nat) (data : Bytes) (b : BlobRow)
    (entries : List EntryRow) : Option Nat :=
  match paranoiaLoop sha decompress ks data 0 entries with
  | none => none
  | some consumed =>
    if ¬allZero (decryptBlobEntry ks b.padding_key consumed (data.drop consumed)) then none
    else if data.length ≠ b.size then none
    else if sha data ≠ b.final_hash then none
    else some b.size

/-- The embedding of `paranoia.BlobReaderParanoia(outerReader, blobID, storage)` where
`data` is the full byte stream `outerReader` delivers. Mirrors the Go:
sanity-check the id length, look up `padding_key`, `size`, `final_hash`
(panic when the blob id does not exist), and run the entry loop and the
padding, size and digest checks on the rows ordered by
`(offset, final_size)`. `none` models a panic. -/
def BlobReaderParanoia (sha : Bytes → Bytes) (decompress : String → Bytes → Bytes)
    (ks : Bytes → Nat → Nat) (data : Bytes) (blobID : Bytes) (db : DB) : Option Nat :=
  if blobID.length ≠ 32 then none
  else
    match lookupBlob db blobID with
    | none => none
    | some b => blobParanoiaChecks sha decompress ks data b (sortedEntries db blobID)

/-- The sum of `final_size` over the entry rows of the blob, in query order. -/
def entriesTotal (db : DB) (blobID : Bytes) : Nat :=
  ((sortedEntries db blobID).map (fun e => e.final_size)).sum

/-- The embedding of strings.Split on a newline separator: split a character stream at every
newline; `n` newlines yield `n + 1` pieces, so a trailing newline yields
a final empty piece. -/
def splitLines (s : List Char) : List (List Char) :=
  match s with
  | [] => [[]]
  | c :: rest =>
    if c = '\n' then [] :: splitLines rest
    else
      match splitLines rest with
      | [] => [[c]]
      | l :: ls => (c :: l) :: ls

/-- From `encoding/hex`: the value of one hex digit, `none` for any other
character (Go accepts both letter cases). -/
def hexDigitVal (c : Char) : Option Nat :=
  if '0' ≤ c ∧ c ≤ '9' then some (c.toNat - 48)
  else if 'a' ≤ c ∧ c ≤ 'f' then some (c.toNat - 87)
  else if 'A' ≤ c ∧ c ≤ 'F' then some (c.toNat - 55)
  else none

/-- The embedding of `hex.DecodeString`: consume the characters two at a time, each pair
becoming one byte; odd length or a non-hex character is an error. -/
def hexDecodeChars : List Char → Option Bytes
  | [] => some []
  | [_] => none
  | a :: b :: rest =>
    match hexDigitVal a, hexDigitVal b, hexDecodeChars rest with
    | some x, some y, some r => some ((16 * x + y) :: r)
    | _, _, _ => none

/-- The line loop of `paranoia.BlobParanoia`: for each line of standard
input in order, skip it when blank, panic when its length is not 64 or
it fails hex decoding, otherwise verify the decoded blob id (`verify`
models `BlobReaderParanoia` composed with `DownloadEntireBlob`, returning
the blob size) and accumulate the byte total `sz`. `none` models a
panic of the run. -/
def blobParanoiaLines (verify : Bytes → Option Nat) :
    List (List Char) → Nat → Option Nat
  | [], sz => some sz
  | l :: rest, sz =>
    if l = [] then blobParanoiaLines verify rest sz
    else if l.length ≠ 64 then none
    else
      match hexDecodeChars l with
      | none => none
      | some blobID =>
        match verify blobID with
        | none => none
        | some n => blobParanoiaLines verify rest (sz + n)

/-- The embedding of `paranoia.BlobParanoia`: read all of standard input (`stdin`), split
it into lines, and run the line loop starting from a zero byte total. -/
def BlobParanoia (verify : Bytes → Option Nat) (stdin : List Char) : Option Nat :=
  blobParanoiaLines verify (splitLines stdin) 0

/-- The decimal digit characters used by `strconv.FormatInt(_, 10)`. -/
def digitChar (n : Nat) : Char :=
  match n with
  | 0 => '0'
  | 1 => '1'
  | 2 => '2'
  | 3 => '3'
  | 4 => '4'
  | 5 => '5'
  | 6 => '6'
  | 7 => '7'
  | 8 => '8'
  | 9 => '9'
  | _ => '*'

/-- A strconv-style decimal rendering of a natural: peel the least
significant digit onto the accumulator until one digit remains. The
first argument is recursion fuel; `n` itself is always enough. -/
def natToDecAux : Nat → Nat → List Char → List Char
  | 0, n, acc => digitChar n :: acc
  | fuel + 1, n, acc =>
    if n < 10 then digitChar n :: acc
    else natToDecAux fuel (n / 10) (digitChar (n % 10) :: acc)

/-- Decimal digits of a natural number, most significant first. -/
def natToDec (n : Nat) : List Char :=
  natToDecAux n n []

/-- The embedding of `strconv.FormatInt(i, 10)` on an `int64` value: decimal digits,
preceded by a minus sign when negative. -/
def formatInt (i : Int) : String :=
  match i with
  | .ofNat n => ⟨natToDec n⟩
  | .negSucc n => ⟨'-' :: natToDec (n + 1)⟩

/-- The embedding of `utils.FormatHTTPRange(offset, length)`:
the string `bytes=` + offset + `-` + (offset+length-1). -/
def FormatHTTPRange (offset length : Int) : String :=
  "bytes=" ++ formatInt offset ++ "-" ++ formatInt (offset + length - 1)

/-- The numeric value of a decimal digit string, as a reader of the wire
format would decode it. -/
def decToNat (cs : List Char) : Nat :=
  cs.foldl (fun a c => 10 * a + (c.toNat - 48)) 0

/-- Modelled from the spec (§6): a reader of the wire format
`bytes=<first>-<last>` for a ranged read; strips the `bytes=` prefix and
splits the remainder at the first `-`, decoding both decimal endpoints
of the inclusive-inclusive range. -/
def parseHTTPRange (s : String) : Option (Nat × Nat) :=
  match s.data with
  | 'b' :: 'y' :: 't' :: 'e' :: 's' :: '=' :: rest =>
    let a := rest.takeWhile (fun c => c ≠ '-')
    match rest.dropWhile (fun c => c ≠ '-') with
    | '-' :: bs =>
      if a = [] ∨ bs = [] then none
      else some (decToNat a, decToNat bs)
    | _ => none
  | _ => none

/-- A dynamic Go stream value as the `utils` conversion helpers see it:
`plainR` is an `io.Reader` that is not an `io.ReadCloser`; `baseRC` is an
externally provided `io.ReadCloser`; `fakeReader` is the package
wrapper holding a `ReadCloser` and a pipe that is nil until the first
read (`started = false` means no read has occurred yet); `fakeReadCloser`
is the package wrapper with a no-op close around a Reader. -/
inductive GoVal where
  | plainR (id : Nat)
  | baseRC (id : Nat)
  | fakeReader (rc : GoVal) (started : Bool)
  | fakeReadCloser (r : GoVal)
deriving DecidableEq

/-- The Go type assertion `v.(io.ReadCloser)`: `baseRC` and
`fakeReadCloser` have a `Close` method; `plainR` and `fakeReader` do not. -/
def isReadCloser : GoVal → Bool
  | .baseRC _ => true
  | .fakeReadCloser _ => true
  | .plainR _ => false
  | .fakeReader _ _ => false

/-- The embedding of `utils.ReadCloserToReader(in)`: unwrap a `fakeReadCloser`, otherwise
wrap the ReadCloser in a fresh `fakeReader` with a nil pipe. -/
def ReadCloserToReader (rc : GoVal) : GoVal :=
  match rc with
  | .fakeReadCloser r => r
  | x => .fakeReader x false

/-- The embedding of `utils.ReaderToReadCloser(in)`: a `fakeReader` whose pipe is still
nil gives back its wrapped ReadCloser; any other value that already is a
ReadCloser is returned as is; the rest are wrapped in `fakeReadCloser`. -/
def ReaderToReadCloser (r : GoVal) : GoVal :=
  match r with
  | .fakeReader rc false => rc
  | x => if isReadCloser x then x else .fakeReadCloser x

/-- The underlying stream a value ultimately reads from: strip every
package wrapper. -/
def underlyingStream : GoVal → GoVal
  | .plainR id => .plainR id
  | .baseRC id => .baseRC id
  | .fakeReader rc _ => underlyingStream rc
  | .fakeReadCloser r => underlyingStream r

/-- Modelled from the spec (§3, §6): the packer records on each
`blob_entries` row the same key as the single
`encryption_key` (the covered sources only read these columns; the
writer that maintains the invariant is out of scope). -/
def entryKeysConsistent (db : DB) : Prop :=
  ∀ e ∈ db.blob_entries, ∀ b ∈ db.blobs, b.blob_id = e.blob_id →
    e.key = b.encryption_key

/-- Uniqueness of `blob_id`, the primary key of `blobs`. -/
def blobIdUnique (db : DB) : Prop :=
  ∀ b1 ∈ db.blobs, ∀ b2 ∈ db.blobs, b1.blob_id = b2.blob_id → b1 = b2

/-- Uniqueness of `hash`, the primary key of `blob_entries`. -/
def entryHashUnique (db : DB) : Prop :=
  ∀ e1 ∈ db.blob_entries, ∀ e2 ∈ db.blob_entries, e1.hash = e2.hash → e1 = e2

instance (db : DB) : Decidable (entryKeysConsistent db) :=
  inferInstanceAs (Decidable (∀ e ∈ db.blob_entries, ∀ b ∈ db.blobs,
    b.blob_id = e.blob_id → e.key = b.encryption_key))

instance (db : DB) : Decidable (blobIdUnique db) :=
  inferInstanceAs (Decidable (∀ b1 ∈ db.blobs, ∀ b2 ∈ db.blobs,
    b1.blob_id = b2.blob_id → b1 = b2))

instance (db : DB) : Decidable (entryHashUnique db) :=
  inferInstanceAs (Decidable (∀ e1 ∈ db.blob_entries, ∀ e2 ∈ db.blob_entries,
    e1.hash = e2.hash → e1 = e2))

theorem decryptBlobEntry_length (ks : Bytes → Nat → Nat) (key : Bytes) :
    ∀ off data, (decryptBlobEntry ks key off data).length = data.length
  | _, [] => rfl
  | off, b :: rest => by
    simp [decryptBlobEntry, decryptBlobEntry_length ks key (off + 1) rest]

theorem decrypt_encrypt (ks : Bytes → Nat → Nat) (key : Bytes) :
    ∀ off data, decryptBlobEntry ks key off (encryptBlobEntry ks key off data) = data
  | _, [] => rfl
  | off, b :: rest => by
    simp [encryptBlobEntry, decryptBlobEntry, decrypt_encrypt ks key (off + 1) rest,
      Nat.xor_assoc, Nat.xor_self, Nat.xor_zero]

theorem lexLeb_refl : ∀ a, lexLeb a a = true
  | [] => rfl
  | x :: xs => by simp [lexLeb, lexLeb_refl xs]

theorem lexLeb_total : ∀ a b, lexLeb a b = true ∨ lexLeb b a = true
  | [], _ => .inl rfl
  | _ :: _, [] => .inr rfl
  | a :: as, b :: bs => by
    simp only [lexLeb]
    rcases Nat.lt_trichotomy a b with h | h | h
    · left
      simp [h]
    · subst h
      simpa [Nat.lt_irrefl] using lexLeb_total as bs
    · right
      simp [h]

theorem lexLeb_trans : ∀ a b c, lexLeb a b = true → lexLeb b c = true → lexLeb a c = true
  | [], _, _ => fun _ _ => rfl
  | _ :: _, [], _ => fun h _ => by simp [lexLeb] at h
  | _ :: _, _ :: _, [] => fun _ h => by simp [lexLeb] at h
  | a :: as, b :: bs, c :: cs => fun h1 h2 => by
    simp only [lexLeb] at h1 h2 ⊢
    rcases Nat.lt_trichotomy a b with hab | hab | hab <;>
      rcases Nat.lt_trichotomy b c with hbc | hbc | hbc <;>
      simp_all [Nat.lt_irrefl] <;>
      first
        | (have : a < c := by omega
           simp [this])
        | (exact lexLeb_trans as bs cs h1 h2)

theorem labelLE_refl (a : String) : labelLE a a :=
  lexLeb_refl _

instance : IsTotal CatRow catRowLE :=
  ⟨fun _ _ => lexLeb_total _ _⟩

instance : IsTrans CatRow catRowLE :=
  ⟨fun _ _ _ h1 h2 => lexLeb_trans _ _ _ h1 h2⟩

instance : IsTotal EntryRow entryLE :=
  ⟨fun a b => by
    simp only [entryLE]
    omega⟩

instance : IsTrans EntryRow entryLE :=
  ⟨fun a b c h1 h2 => by
    simp only [entryLE] at h1 h2 ⊢
    omega⟩

theorem head?_mem {α : Type} {l : List α} {a : α} (h : l.head? = some a) : a ∈ l := by
  cases l with
  | nil => simp at h
  | cons x t =>
    simp only [List.head?, Option.some.injEq] at h
    subst h
    exact List.mem_cons_self x t

theorem chunkAt_length (data : Bytes) (c f : Nat) :
    (chunkAt data c f).length = min f (data.length - c) := by
  simp [chunkAt]

theorem paranoiaLoop_consumed (sha : Bytes → Bytes) (decompress : String → Bytes → Bytes)
    (ks : Bytes → Nat → Nat) (data : Bytes) :
    ∀ es c c2, paranoiaLoop sha decompress ks data c es = some c2 →
      c2 = c + (es.map (fun e => e.final_size)).sum
  | [], c, c2 => by
    intro h
    simp only [paranoiaLoop, Option.some.injEq] at h
    simp [← h]
  | e :: rest, c, c2 => by
    intro h
    simp only [paranoiaLoop] at h
    split_ifs at h with h1 h2 h3
    have ih := paranoiaLoop_consumed sha decompress ks data rest _ _ h
    simp only [List.map_cons, List.sum_cons]
    push_neg at h1 h2
    omega

theorem paranoiaLoop_le (sha : Bytes → Bytes) (decompress : String → Bytes → Bytes)
    (ks : Bytes → Nat → Nat) (data : Bytes) :
    ∀ es c c2, paranoiaLoop sha decompress ks data c es = some c2 →
      c ≤ data.length → c2 ≤ data.length
  | [], c, c2 => by
    intro h hc
    simp only [paranoiaLoop, Option.some.injEq] at h
    omega
  | e :: rest, c, c2 => by
    intro h hc
    simp only [paranoiaLoop] at h
    split_ifs at h with h1 h2 h3
    have hck := chunkAt_length data c e.final_size
    exact paranoiaLoop_le sha decompress ks data rest _ _ h (by omega)

theorem paranoiaLoop_alignment (sha : Bytes → Bytes) (decompress : String → Bytes → Bytes)
    (ks : Bytes → Nat → Nat) (data : Bytes) :
    ∀ es c c2, paranoiaLoop sha decompress ks data c es = some c2 →
      ∀ i (hi : i < es.length),
        c + ((es.take i).map (fun e => e.final_size)).sum = (es.get ⟨i, hi⟩).offset ∧
        c + ((es.take (i + 1)).map (fun e => e.final_size)).sum =
          (es.get ⟨i, hi⟩).offset + (es.get ⟨i, hi⟩).final_size
  | [], _, _ => by
    intro _ i hi
    simp at hi
  | e :: rest, c, c2 => by
    intro h i hi
    simp only [paranoiaLoop] at h
    split_ifs at h with h1 h2 h3
    push_neg at h1 h2
    cases i with
    | zero =>
      constructor
      · simpa using h1
      · simp only [List.take_succ_cons, List.take_zero, List.map_cons, List.map_nil,
          List.sum_cons, List.sum_nil, List.get]
        omega
    | succ j =>
      have hj : j < rest.length := by simpa using hi
      have ih := paranoiaLoop_alignment sha decompress ks data rest _ _ h j hj
      constructor
      · simp only [List.take_succ_cons, List.map_cons, List.sum_cons, List.get]
        have := ih.1
        omega
      · simp only [List.take_succ_cons, List.map_cons, List.sum_cons, List.get]
        have := ih.2
        omega

theorem digitChar_toNat : ∀ m < 10, (digitChar m).toNat = 48 + m := by
  decide

theorem natToDecAux_fuel_irrel :
    ∀ n f1 f2 acc, n ≤ f1 → n ≤ f2 → natToDecAux f1 n acc = natToDecAux f2 n acc := by
  intro n
  induction n using Nat.strong_induction_on with
  | _ n ih =>
    intro f1 f2 acc h1 h2
    by_cases h : n < 10
    · cases f1 <;> cases f2 <;> simp_all [natToDecAux]
    · have hn0 : 0 < n := by omega
      obtain ⟨g1, rfl⟩ : ∃ g1, f1 = g1 + 1 := ⟨f1 - 1, by omega⟩
      obtain ⟨g2, rfl⟩ : ∃ g2, f2 = g2 + 1 := ⟨f2 - 1, by omega⟩
      simp only [natToDecAux, h, if_false, if_neg, not_false_iff]
      have hlt : n / 10 < n := Nat.div_lt_self hn0 (by omega)
      exact ih (n / 10) hlt g1 g2 _ (by omega) (by omega)

theorem natToDecAux_append (n : Nat) :
    ∀ fuel acc, n ≤ fuel → natToDecAux fuel n acc = natToDecAux fuel n [] ++ acc := by
  induction n using Nat.strong_induction_on with
  | _ n ih =>
    intro fuel acc hf
    by_cases h : n < 10
    · cases fuel <;> simp [natToDecAux, h]
    · obtain ⟨g, rfl⟩ : ∃ g, fuel = g + 1 := ⟨fuel - 1, by omega⟩
      simp only [natToDecAux, h, if_false, if_neg, not_false_iff]
      have hlt : n / 10 < n := Nat.div_lt_self (by omega) (by omega)
      have hg : n / 10 ≤ g := by omega
      rw [ih (n / 10) hlt g (digitChar (n % 10) :: acc) hg,
        ih (n / 10) hlt g [digitChar (n % 10)] hg]
      simp

theorem natToDec_lt (n : Nat) (h : n < 10) : natToDec n = [digitChar n] := by
  rw [natToDec]
  cases n with
  | zero => rfl
  | succ k => simp [natToDecAux, h]

theorem natToDecAux_step (f k : Nat) (acc : List Char) (hk : ¬k < 10) :
    natToDecAux (f + 1) k acc = natToDecAux f (k / 10) (digitChar (k % 10) :: acc) := by
  simp [natToDecAux, hk]

theorem natToDec_ge (n : Nat) (h : ¬n < 10) :
    natToDec n = natToDec (n / 10) ++ [digitChar (n % 10)] := by
  obtain ⟨g, hg⟩ : ∃ g, n = g + 1 := ⟨n - 1, by omega⟩
  rw [natToDec, hg, natToDecAux_step g (g + 1) [] (hg ▸ h), ← hg,
    natToDecAux_append (n / 10) g [digitChar (n % 10)] (by omega),
    natToDecAux_fuel_irrel (n / 10) g (n / 10) [] (by omega) (le_refl _),
    natToDec]

theorem natToDec_digits (n : Nat) :
    ∀ c ∈ natToDec n, 48 ≤ c.toNat ∧ c.toNat ≤ 57 := by
  induction n using Nat.strong_induction_on with
  | _ n ih =>
    by_cases h : n < 10
    · rw [natToDec_lt n h]
      intro c hc
      simp only [List.mem_singleton] at hc
      subst hc
      rw [digitChar_toNat n h]
      omega
    · rw [natToDec_ge n h]
      intro c hc
      rcases List.mem_append.mp hc with hc | hc
      · exact ih (n / 10) (Nat.div_lt_self (by omega) (by omega)) c hc
      · simp only [List.mem_singleton] at hc
        subst hc
        rw [digitChar_toNat (n % 10) (Nat.mod_lt n (by omega))]
        omega

theorem natToDec_ne_nil (n : Nat) : natToDec n ≠ [] := by
  by_cases h : n < 10
  · rw [natToDec_lt n h]
    simp
  · rw [natToDec_ge n h]
    simp

theorem decToNat_append_digit (l : List Char) (c : Char) :
    decToNat (l ++ [c]) = 10 * decToNat l + (c.toNat - 48) := by
  simp [decToNat, List.foldl_append]

theorem decToNat_natToDec (n : Nat) : decToNat (natToDec n) = n := by
  induction n using Nat.strong_induction_on with
  | _ n ih =>
    by_cases h : n < 10
    · rw [natToDec_lt n h]
      simp [decToNat, digitChar_toNat n h]
    · rw [natToDec_ge n h, decToNat_append_digit,
        ih (n / 10) (Nat.div_lt_self (by omega) (by omega)),
        digitChar_toNat (n % 10) (Nat.mod_lt n (by omega))]
      omega

theorem digit_ne_dash {c : Char} (h : 48 ≤ c.toNat ∧ c.toNat ≤ 57) : c ≠ '-' := by
  intro he
  subst he
  have : ('-').toNat = 45 := rfl
  omega

theorem takeWhile_digits_append (l1 l2 : List Char)
    (h : ∀ c ∈ l1, 48 ≤ c.toNat ∧ c.toNat ≤ 57) :
    (l1 ++ '-' :: l2).takeWhile (fun c => c ≠ '-') = l1 := by
  induction l1 with
  | nil =>
    simp [List.takeWhile_cons]
  | cons x xs ihx =>
    have hx : x ≠ '-' := digit_ne_dash (h x (List.mem_cons_self x xs))
    simp only [List.cons_append, List.takeWhile_cons, decide_eq_true_eq]
    rw [if_pos hx, ihx (fun c hc => h c (List.mem_cons_of_mem x hc))]

theorem dropWhile_digits_append (l1 l2 : List Char)
    (h : ∀ c ∈ l1, 48 ≤ c.toNat ∧ c.toNat ≤ 57) :
    (l1 ++ '-' :: l2).dropWhile (fun c => c ≠ '-') = '-' :: l2 := by
  induction l1 with
  | nil =>
    simp [List.dropWhile_cons]
  | cons x xs ihx =>
    have hx : x ≠ '-' := digit_ne_dash (h x (List.mem_cons_self x xs))
    simp only [List.cons_append, List.dropWhile_cons, decide_eq_true_eq]
    rw [if_pos hx]
    exact ihx (fun c hc => h c (List.mem_cons_of_mem x hc))

theorem formatInt_ofNat (k : Nat) : formatInt (k : Int) = ⟨natToDec k⟩ :=
  rfl

theorem formatHTTPRange_data (offset length : Int) (n m : Nat)
    (hn : offset = (n : Int)) (hm : offset + length - 1 = (m : Int)) :
    (FormatHTTPRange offset length).data =
      'b' :: 'y' :: 't' :: 'e' :: 's' :: '=' :: (natToDec n ++ '-' :: natToDec m) := by
  rw [FormatHTTPRange, hm, hn, formatInt_ofNat, formatInt_ofNat]
  simp only [String.data_append, List.append_assoc]
  rfl

/-- C9: for every offset and length, the HTTP range header produced for a
ranged read of `[offset, offset+length)` is the string
`bytes=` ++ offset ++ `-` ++ (offset+length-1): an inclusive-inclusive
range whose inclusive end is offset+length-1, as reading the wire format
back confirms. -/
theorem formatHTTPRange_inclusive_range (offset length : Int)
    (h1 : 0 ≤ offset) (h2 : 1 ≤ length) :
    FormatHTTPRange offset length =
      "bytes=" ++ formatInt offset ++ "-" ++ formatInt (offset + length - 1) ∧
    parseHTTPRange (FormatHTTPRange offset length) =
      some (offset.toNat, offset.toNat + (length.toNat - 1)) := by
  obtain ⟨n, hn⟩ := Int.eq_ofNat_of_zero_le h1
  obtain ⟨m, hm⟩ := Int.eq_ofNat_of_zero_le (a := offset + length - 1) (by omega)
  refine ⟨rfl, ?_⟩
  have hfmt := formatHTTPRange_data offset length n m hn hm
  rw [parseHTTPRange, hfmt]
  simp only
  rw [takeWhile_digits_append (natToDec n) (natToDec m) (natToDec_digits n),
    dropWhile_digits_append (natToDec n) (natToDec m) (natToDec_digits n)]
  simp only
  rw [if_neg (by
    push_neg
    exact ⟨natToDec_ne_nil n, natToDec_ne_nil m⟩)]
  rw [decToNat_natToDec, decToNat_natToDec]
  simp only [Option.some.injEq, Prod.mk.injEq]
  omega

/-- Witness for C9 at offset 5, length 3. -/
theorem formatHTTPRange_inclusive_range_witness :
    (0 : Int) ≤ 5 ∧ (1 : Int) ≤ 3 ∧
    FormatHTTPRange 5 3 = "bytes=" ++ formatInt 5 ++ "-" ++ formatInt (5 + 3 - 1) ∧
    parseHTTPRange (FormatHTTPRange 5 3) =
      some ((5 : Int).toNat, (5 : Int).toNat + ((3 : Int).toNat - 1)) :=
  ⟨by decide, by decide,
    (formatHTTPRange_inclusive_range 5 3 (by decide) (by decide)).1,
    (formatHTTPRange_inclusive_range 5 3 (by decide) (by decide)).2⟩

theorem hexDecodeChars_length : ∀ cs r, hexDecodeChars cs = some r → cs.length = 2 * r.length
  | [], r => by
    intro h
    simp only [hexDecodeChars, Option.some.injEq] at h
    simp [← h]
  | [_], r => by
    intro h
    simp [hexDecodeChars] at h
  | a :: b :: rest, r => by
    intro h
    simp only [hexDecodeChars] at h
    split at h
    · next x y r2 hx hy hr =>
        cases h
        have := hexDecodeChars_length rest r2 hr
        simp only [List.length_cons]
        omega
    · exact absurd h (by simp)

/-- C8: the paranoia-blob CLI entry point splits standard input into
lines; a blank line is skipped without effect; a non-blank line whose
length is not 64 or that is not valid hex terminates the run (the result
is `none` whatever lines follow); a valid non-blank line decodes to a
32-byte blob id which is then verified, and the run continues with the
remaining lines only if verification succeeds. -/
theorem blobParanoia_line_handling (verify : Bytes → Option Nat)
    (l : List Char) (rest : List (List Char)) (sz : Nat) :
    blobParanoiaLines verify ([] :: rest) sz = blobParanoiaLines verify rest sz ∧
    (l ≠ [] → (l.length ≠ 64 ∨ hexDecodeChars l = none) →
      blobParanoiaLines verify (l :: rest) sz = none) ∧
    (∀ blobID, l.length = 64 → hexDecodeChars l = some blobID →
      blobID.length = 32 ∧
      blobParanoiaLines verify (l :: rest) sz =
        match verify blobID with
        | none => none
        | some n => blobParanoiaLines verify rest (sz + n)) := by
  refine ⟨rfl, ?_, ?_⟩
  · intro hne hbad
    simp only [blobParanoiaLines, if_neg hne]
    rcases hbad with hlen | hdec
    · rw [if_pos hlen]
    · by_cases hlen : l.length ≠ 64
      · rw [if_pos hlen]
      · rw [if_neg hlen, hdec]
  · intro blobID hlen hdec
    constructor
    · have := hexDecodeChars_length l blobID hdec
      omega
    · have hne : l ≠ [] := by
        intro he
        subst he
        simp at hlen
      simp only [blobParanoiaLines, if_neg hne]
      rw [if_neg (by omega), hdec]

/-- Witness for C8: a 2-character line kills the run; a line of 64 zeros
decodes to 32 zero bytes, is verified, and its size accumulates. -/
theorem blobParanoia_line_handling_witness :
    blobParanoiaLines (fun _ => some 7) ("ab".data :: ["cd".data]) 0 = none ∧
    (List.replicate 64 '0').length = 64 ∧
    blobParanoiaLines (fun _ => some 7) (List.replicate 64 '0' :: []) 0 = some 7 := by
  refine ⟨?_, by decide, ?_⟩
  · exact (blobParanoia_line_handling (fun _ => some 7) "ab".data ["cd".data] 0).2.1
      (by decide) (.inl (by decide))
  · have h := ((blobParanoia_line_handling (fun _ => some 7) (List.replicate 64 '0') [] 0).2.2
      (List.replicate 32 0) (by decide) (by decide)).2
    exact h.trans (by decide)

/-- C10 as frozen is false: for the ReadCloser
`fakeReadCloser (baseRC 0)` (the package wrapper around a value that is
itself a ReadCloser), `ReadCloserToReader` unwraps to `baseRC 0` and
`ReaderToReadCloser` returns that ReadCloser itself, not the original
wrapper — even though no read ever occurred. -/
theorem readCloserToReader_roundtrip_counterexample :
    ReaderToReadCloser (ReadCloserToReader (GoVal.fakeReadCloser (GoVal.baseRC 0))) ≠
      GoVal.fakeReadCloser (GoVal.baseRC 0) ∧
    ReadCloserToReader (ReaderToReadCloser (GoVal.fakeReader (GoVal.fakeReadCloser (GoVal.plainR 1)) false)) ≠
      GoVal.fakeReader (GoVal.fakeReadCloser (GoVal.plainR 1)) false := by
  refine ⟨?_, ?_⟩ <;> decide

/-- C10 amended: the round trip `ReaderToReadCloser ∘ ReadCloserToReader`
returns the ReadCloser itself when it is not the internal
`fakeReadCloser` wrapper (no read having occurred on the intermediate
wrapper); the round trip `ReadCloserToReader ∘ ReaderToReadCloser`
returns the Reader itself when it is a plain Reader (not a ReadCloser
and not a package wrapper); and in every case both conversions preserve
the underlying stream that is read. -/
theorem readCloser_reader_roundtrip (rc r : GoVal) :
    ((∀ x, rc ≠ GoVal.fakeReadCloser x) →
      ReaderToReadCloser (ReadCloserToReader rc) = rc) ∧
    ((∃ id, r = GoVal.plainR id) →
      ReadCloserToReader (ReaderToReadCloser r) = r) ∧
    underlyingStream (ReadCloserToReader rc) = underlyingStream rc ∧
    underlyingStream (ReaderToReadCloser r) = underlyingStream r := by
  refine ⟨?_, ?_, ?_, ?_⟩
  · intro h
    cases rc <;> first
      | rfl
      | exact absurd rfl (h _)
  · rintro ⟨id, rfl⟩
    rfl
  · cases rc <;> rfl
  · cases r with
    | fakeReader rc2 st => cases st <;> rfl
    | plainR id => rfl
    | baseRC id => rfl
    | fakeReadCloser x => rfl

/-- Witness for the amended C10 on an external ReadCloser and a plain
Reader. -/
theorem readCloser_reader_roundtrip_witness :
    ReaderToReadCloser (ReadCloserToReader (GoVal.baseRC 3)) = GoVal.baseRC 3 ∧
    ReadCloserToReader (ReaderToReadCloser (GoVal.plainR 4)) = GoVal.plainR 4 ∧
    underlyingStream (ReadCloserToReader (GoVal.baseRC 3)) =
      underlyingStream (GoVal.baseRC 3) :=
  ⟨(readCloser_reader_roundtrip (GoVal.baseRC 3) (GoVal.plainR 4)).1 (fun _ h => nomatch h),
    (readCloser_reader_roundtrip (GoVal.baseRC 3) (GoVal.plainR 4)).2.1 ⟨4, rfl⟩,
    (readCloser_reader_roundtrip (GoVal.baseRC 3) (GoVal.plainR 4)).2.2.1⟩

/-- C7 as frozen is false: on a database with no row for the requested
hash, `CatReadCloser` does not return any structured error value — its
Go signature returns only a stream, and the `sql.ErrNoRows` failure is a
`panic`, i.e. process termination (`CatOutcome.terminated`). -/
theorem cat_notfound_counterexample :
    CatReadCloser (fun _ _ => 0) (fun _ d => d) (fun _ _ => [])
      ⟨[], [], [], [], []⟩ [1] = CatOutcome.terminated := by
  decide

/-- C7 amended: for every hash that is absent from `blob_entries` or has
no live placement (the retrieval join is empty), `CatReadCloser` panics
and the process terminates; there is no error return and no retry — the
lookup runs once and its failure is immediately fatal. -/
theorem cat_notfound_terminates (ks : Bytes → Nat → Nat)
    (decompress : String → Bytes → Bytes) (fetch : Bytes → String → Bytes)
    (db : DB) (h : Bytes) (hq : catJoinRows db h = []) :
    CatReadCloser ks decompress fetch db h = CatOutcome.terminated := by
  simp [CatReadCloser, catQuery, hq, List.insertionSort]

/-- Witness for the amended C7 on the empty database. -/
theorem cat_notfound_terminates_witness :
    catJoinRows ⟨[], [], [], [], []⟩ [1] = [] ∧
    CatReadCloser (fun _ _ => 1) (fun _ d => d) (fun _ _ => [])
      ⟨[], [], [], [], []⟩ [1] = CatOutcome.terminated :=
  ⟨by decide, cat_notfound_terminates _ _ _ _ _ (by decide)⟩

theorem blobReaderParanoia_some {sha : Bytes → Bytes} {decompress : String → Bytes → Bytes}
    {ks : Bytes → Nat → Nat} {data blobID : Bytes} {db : DB} {sz : Nat}
    (hp : BlobReaderParanoia sha decompress ks data blobID db = some sz) :
    blobID.length = 32 ∧ ∃ b, lookupBlob db blobID = some b ∧
      blobParanoiaChecks sha decompress ks data b (sortedEntries db blobID) = some sz := by
  rw [BlobReaderParanoia] at hp
  by_cases h32 : blobID.length ≠ 32
  · rw [if_pos h32] at hp
    exact absurd hp (by simp)
  · rw [if_neg h32] at hp
    cases hlb : lookupBlob db blobID with
    | none =>
      rw [hlb] at hp
      exact absurd hp (by simp)
    | some b =>
      rw [hlb] at hp
      exact ⟨by omega, b, rfl, hp⟩

theorem blobParanoiaChecks_some {sha : Bytes → Bytes} {decompress : String → Bytes → Bytes}
    {ks : Bytes → Nat → Nat} {data : Bytes} {b : BlobRow} {es : List EntryRow} {sz : Nat}
    (hc : blobParanoiaChecks sha decompress ks data b es = some sz) :
    ∃ consumed, paranoiaLoop sha decompress ks data 0 es = some consumed ∧
      allZero (decryptBlobEntry ks b.padding_key consumed (data.drop consumed)) ∧
      data.length = b.size ∧ sha data = b.final_hash ∧ sz = b.size := by
  rw [blobParanoiaChecks] at hc
  cases hloop : paranoiaLoop sha decompress ks data 0 es with
  | none =>
    rw [hloop] at hc
    exact absurd hc (by simp)
  | some consumed =>
    rw [hloop] at hc
    dsimp only at hc
    by_cases h1 : ¬allZero (decryptBlobEntry ks b.padding_key consumed (data.drop consumed))
    · rw [if_pos h1] at hc
      exact absurd hc (by simp)
    · rw [if_neg h1] at hc
      by_cases h2 : data.length ≠ b.size
      · rw [if_pos h2] at hc
        exact absurd hc (by simp)
      · rw [if_neg h2] at hc
        by_cases h3 : sha data ≠ b.final_hash
        · rw [if_pos h3] at hc
          exact absurd hc (by simp)
        · rw [if_neg h3] at hc
          simp only [Option.some.injEq] at hc
          exact ⟨consumed, rfl, not_not.mp h1, not_not.mp h2, not_not.mp h3, hc.symm⟩

/-- C2: if `BlobReaderParanoia` completes without error on a blob `b`,
then the bytes after the last entry, decrypted under the padding key of `b`
continuing from the end-of-last-entry offset (the sum over entries of
final sizes), are all zero; the number of bytes consumed equals
`b.size`, so the sum of entry final sizes plus the padding length equals
`b.size`; and the digest of the full downloaded stream equals the
recorded post-encryption hash. Any violation makes the run return
`none` (a fatal panic). -/
theorem blobReaderParanoia_success (sha : Bytes → Bytes)
    (decompress : String → Bytes → Bytes) (ks : Bytes → Nat → Nat)
    (data blobID : Bytes) (db : DB) (b : BlobRow) (sz : Nat)
    (hb : lookupBlob db blobID = some b)
    (hp : BlobReaderParanoia sha decompress ks data blobID db = some sz) :
    decryptBlobEntry ks b.padding_key (entriesTotal db blobID)
        (data.drop (entriesTotal db blobID)) =
      List.replicate (data.length - entriesTotal db blobID) 0 ∧
    data.length = b.size ∧
    entriesTotal db blobID + (data.length - entriesTotal db blobID) = b.size ∧
    sha data = b.final_hash ∧
    sz = b.size := by
  obtain ⟨h32, b2, hb2, hc⟩ := blobReaderParanoia_some hp
  rw [hb] at hb2
  injection hb2 with hbe
  subst hbe
  obtain ⟨consumed, hloop, hzero, hsize, hsha, hsz⟩ := blobParanoiaChecks_some hc
  have hcons := paranoiaLoop_consumed sha decompress ks data _ 0 consumed hloop
  have hle := paranoiaLoop_le sha decompress ks data _ 0 consumed hloop (by omega)
  have hctot : entriesTotal db blobID = consumed := by
    rw [entriesTotal]
    omega
  rw [hctot]
  have hrl : (decryptBlobEntry ks b.padding_key consumed (data.drop consumed)).length =
      data.length - consumed := by
    rw [decryptBlobEntry_length, List.length_drop]
  rw [allZero, hrl] at hzero
  exact ⟨hzero, hsize, by omega, hsha, hsz⟩

/-- Witness for C2: a one-entry blob with one zero byte of padding whose
paranoia run succeeds. -/
theorem blobReaderParanoia_success_witness :
    lookupBlob ⟨[], [⟨List.replicate 32 2, [5], [9], 3, [3]⟩],
        [⟨[2], List.replicate 32 2, 2, 0, "", [5]⟩], [], []⟩ (List.replicate 32 2) =
      some ⟨List.replicate 32 2, [5], [9], 3, [3]⟩ ∧
    BlobReaderParanoia (fun l => [l.length]) (fun _ d => d) (fun _ _ => 0) [7, 8, 0]
        (List.replicate 32 2)
        ⟨[], [⟨List.replicate 32 2, [5], [9], 3, [3]⟩],
          [⟨[2], List.replicate 32 2, 2, 0, "", [5]⟩], [], []⟩ = some 3 ∧
    ([7, 8, 0] : Bytes).length = 3 ∧
    (fun (l : Bytes) => [l.length]) [7, 8, 0] = [3] :=
  ⟨by decide, by decide,
    (blobReaderParanoia_success (fun l => [l.length]) (fun _ d => d) (fun _ _ => 0)
      [7, 8, 0] (List.replicate 32 2)
      ⟨[], [⟨List.replicate 32 2, [5], [9], 3, [3]⟩],
        [⟨[2], List.replicate 32 2, 2, 0, "", [5]⟩], [], []⟩
      ⟨List.replicate 32 2, [5], [9], 3, [3]⟩ 3 (by decide) (by decide)).2.1,
    (blobReaderParanoia_success (fun l => [l.length]) (fun _ d => d) (fun _ _ => 0)
      [7, 8, 0] (List.replicate 32 2)
      ⟨[], [⟨List.replicate 32 2, [5], [9], 3, [3]⟩],
        [⟨[2], List.replicate 32 2, 2, 0, "", [5]⟩], [], []⟩
      ⟨List.replicate 32 2, [5], [9], 3, [3]⟩ 3 (by decide) (by decide)).2.2.2.1⟩

/-- C3: during a successful `BlobReaderParanoia` run, for every entry of
the blob in query order, the count of encrypted bytes consumed
immediately before the entry is drained (the sum of the final sizes of
the preceding entries) equals the offset of the entry, and the count
immediately after equals offset + final_size; either check failing would
have made the run return `none`. At `i = 0` this gives offset 0, and
across consecutive entries it gives contiguous, non-overlapping
coverage. -/
theorem blobReaderParanoia_alignment (sha : Bytes → Bytes)
    (decompress : String → Bytes → Bytes) (ks : Bytes → Nat → Nat)
    (data blobID : Bytes) (db : DB) (sz : Nat)
    (hp : BlobReaderParanoia sha decompress ks data blobID db = some sz) :
    ∀ i (hi : i < (sortedEntries db blobID).length),
      (((sortedEntries db blobID).take i).map (fun e => e.final_size)).sum =
        ((sortedEntries db blobID).get ⟨i, hi⟩).offset ∧
      (((sortedEntries db blobID).take (i + 1)).map (fun e => e.final_size)).sum =
        ((sortedEntries db blobID).get ⟨i, hi⟩).offset +
          ((sortedEntries db blobID).get ⟨i, hi⟩).final_size := by
  obtain ⟨h32, b, hb, hc⟩ := blobReaderParanoia_some hp
  obtain ⟨consumed, hloop, _⟩ := blobParanoiaChecks_some hc
  intro i hi
  have h := paranoiaLoop_alignment sha decompress ks data _ 0 consumed hloop i hi
  simpa using h

/-- Witness for C3 on the one-entry blob of the C2 witness, at entry 0. -/
theorem blobReaderParanoia_alignment_witness :
    ((((sortedEntries ⟨[], [⟨List.replicate 32 2, [5], [9], 3, [3]⟩],
        [⟨[2], List.replicate 32 2, 2, 0, "", [5]⟩], [], []⟩
        (List.replicate 32 2)).take 0).map (fun e => e.final_size)).sum =
      ((sortedEntries ⟨[], [⟨List.replicate 32 2, [5], [9], 3, [3]⟩],
        [⟨[2], List.replicate 32 2, 2, 0, "", [5]⟩], [], []⟩
        (List.replicate 32 2)).get ⟨0, by decide⟩).offset) ∧
    ((((sortedEntries ⟨[], [⟨List.replicate 32 2, [5], [9], 3, [3]⟩],
        [⟨[2], List.replicate 32 2, 2, 0, "", [5]⟩], [], []⟩
        (List.replicate 32 2)).take 1).map (fun e => e.final_size)).sum =
      ((sortedEntries ⟨[], [⟨List.replicate 32 2, [5], [9], 3, [3]⟩],
        [⟨[2], List.replicate 32 2, 2, 0, "", [5]⟩], [], []⟩
        (List.replicate 32 2)).get ⟨0, by decide⟩).offset +
      ((sortedEntries ⟨[], [⟨List.replicate 32 2, [5], [9], 3, [3]⟩],
        [⟨[2], List.replicate 32 2, 2, 0, "", [5]⟩], [], []⟩
        (List.replicate 32 2)).get ⟨0, by decide⟩).final_size) :=
  blobReaderParanoia_alignment (fun l => [l.length]) (fun _ d => d) (fun _ _ => 0)
    [7, 8, 0] (List.replicate 32 2)
    ⟨[], [⟨List.replicate 32 2, [5], [9], 3, [3]⟩],
      [⟨[2], List.replicate 32 2, 2, 0, "", [5]⟩], [], []⟩ 3 (by decide) 0 (by decide)

theorem catReadCloser_eq_of_query {ks : Bytes → Nat → Nat}
    {decompress : String → Bytes → Bytes} {fetch : Bytes → String → Bytes}
    {db : DB} {h : Bytes} {r : CatRow} (hq : catQuery db h = some r) :
    CatReadCloser ks decompress fetch db h =
      CatOutcome.stream (decompress r.compression_alg
        (decryptBlobEntry ks r.key r.offset
          (downloadSection (fetch r.storage_id r.path) r.offset r.final_size))) := by
  rw [CatReadCloser, hq]

/-- C1: for a hash `h` resolvable to a joined row, if the backend holds
the bytes the packer recorded for that entry — the downloaded range is
the encryption, at the offset of the entry under the key of the blob, of a stored
byte string that decompresses to a plaintext whose digest is `h` and
whose length is the size recorded in `hashes` — then `CatReadCloser`
returns exactly that plaintext, so the length of the stream equals the
recorded size and its digest equals `h`; and whatever bytes any backend
returns, the path performs no integrity check and still yields a stream. -/
theorem catReadCloser_recorded_content (ks : Bytes → Nat → Nat)
    (sha : Bytes → Bytes) (decompress : String → Bytes → Bytes)
    (fetch : Bytes → String → Bytes) (db : DB) (h : Bytes)
    (r : CatRow) (hrow : HashRow) (plain stored : Bytes)
    (hq : catQuery db h = some r)
    (hh : lookupHash db h = some hrow)
    (hsha : sha plain = h)
    (hsize : plain.length = hrow.size)
    (hrec : downloadSection (fetch r.storage_id r.path) r.offset r.final_size =
      encryptBlobEntry ks r.key r.offset stored)
    (hdec : decompress r.compression_alg stored = plain) :
    CatReadCloser ks decompress fetch db h = CatOutcome.stream plain ∧
    plain.length = hrow.size ∧ sha plain = h ∧
    (∀ fetch2, CatReadCloser ks decompress fetch2 db h ≠ CatOutcome.terminated) := by
  refine ⟨?_, hsize, hsha, ?_⟩
  · rw [catReadCloser_eq_of_query hq, hrec, decrypt_encrypt ks r.key, hdec]
  · intro fetch2 hcon
    rw [catReadCloser_eq_of_query hq] at hcon
    exact absurd hcon (by simp)

/-- The one-hash database used by the C1 and C6 witnesses: one hash of
size 2, one blob, one entry at offset 0 with final size 2, one placement
on one storage. -/
def wOneDB : DB :=
  ⟨[⟨[2], 2⟩], [⟨[3], [5], [9], 4, [4]⟩], [⟨[2], [3], 2, 0, "", [5]⟩],
    [⟨[3], [10], "p"⟩], [⟨[10], "s1", "disk", "id1", "/r"⟩]⟩

/-- The row `catQuery` returns on `wOneDB` for hash `[2]`. -/
def wOneRow : CatRow :=
  ⟨[3], 0, 2, "", [5], "p", [10], "disk", "id1", "/r", "s1"⟩

/-- Witness for C1: on `wOneDB`, with the identity keystream and
decompressor, the backend object `[7, 8, 0, 0]` holds the recorded
entry `[7, 8]`, and cat returns it. -/
theorem catReadCloser_recorded_content_witness :
    catQuery wOneDB [2] = some wOneRow ∧
    CatReadCloser (fun _ _ => 0) (fun _ d => d) (fun _ _ => [7, 8, 0, 0]) wOneDB [2] =
      CatOutcome.stream [7, 8] ∧
    ([7, 8] : Bytes).length = 2 ∧
    (fun (l : Bytes) => [l.length]) [7, 8] = [2] :=
  ⟨by decide,
    (catReadCloser_recorded_content (fun _ _ => 0) (fun l => [l.length]) (fun _ d => d)
      (fun _ _ => [7, 8, 0, 0]) wOneDB [2] wOneRow ⟨[2], 2⟩ [7, 8] [7, 8]
      (by decide) (by decide) (by decide) (by decide) (by decide) (by decide)).1,
    by decide, by decide⟩

/-- C4: when the retrieval query returns a row, that row is one of the
joined placements for the hash and its storage label is lexicographically
smallest among all of them; the embedding of `ORDER BY readable_label`
followed by taking the first row is a function of the database state, so
the same hash always resolves to the same placement. -/
theorem catQuery_min_label (db : DB) (h : Bytes) (r : CatRow)
    (hq : catQuery db h = some r) :
    r ∈ catJoinRows db h ∧
    ∀ r2 ∈ catJoinRows db h, labelLE r.readable_label r2.readable_label := by
  have hperm := List.perm_insertionSort catRowLE (catJoinRows db h)
  have hsort := List.sorted_insertionSort catRowLE (catJoinRows db h)
  rw [catQuery] at hq
  cases hl : List.insertionSort catRowLE (catJoinRows db h) with
  | nil =>
    rw [hl] at hq
    simp at hq
  | cons a t =>
    rw [hl] at hq
    simp only [List.head?, Option.some.injEq] at hq
    subst hq
    constructor
    · exact hperm.subset (by rw [hl]; exact List.mem_cons_self a t)
    · intro r2 hr2
      have hr2s : r2 ∈ a :: t := by
        rw [← hl]
        exact hperm.symm.subset hr2
      rcases List.mem_cons.mp hr2s with rfl | hr2t
      · exact labelLE_refl _
      · exact (List.sorted_cons.mp (hl ▸ hsort)).1 r2 hr2t

/-- The two-placement database of the C4 witness: the blob lives on
storages labelled `bb` and `aa`; the `bb` row comes first in every
table. -/
def wTwoDB : DB :=
  ⟨[], [⟨[2], [5], [9], 4, [7]⟩], [⟨[1], [2], 4, 0, "", [5]⟩],
    [⟨[2], [20], "pb"⟩, ⟨[2], [10], "pa"⟩],
    [⟨[20], "bb", "disk", "idb", "/b"⟩, ⟨[10], "aa", "disk", "ida", "/a"⟩]⟩

/-- The `aa` row of `wTwoDB`, which the query must select. -/
def wRowAA : CatRow :=
  ⟨[2], 0, 4, "", [5], "pa", [10], "disk", "ida", "/a", "aa"⟩

/-- The `bb` row of `wTwoDB`. -/
def wRowBB : CatRow :=
  ⟨[2], 0, 4, "", [5], "pb", [20], "disk", "idb", "/b", "bb"⟩

/-- Witness for C4: with placements labelled `bb` and `aa` (in that table
order), the query returns the `aa` row, it is among the joined rows, and
its label is no greater than the label of the `bb` row. -/
theorem catQuery_min_label_witness :
    catQuery wTwoDB [1] = some wRowAA ∧
    wRowAA ∈ catJoinRows wTwoDB [1] ∧
    labelLE wRowAA.readable_label wRowBB.readable_label :=
  ⟨by decide,
    (catQuery_min_label wTwoDB [1] wRowAA (by decide)).1,
    (catQuery_min_label wTwoDB [1] wRowAA (by decide)).2 wRowBB (by decide)⟩

/-- C5: `BlobReaderParanoia` queries exactly the entry rows of the blob
(`sortedEntries` is a permutation of the rows whose `blob_id` matches)
in `(offset asc, final_size asc)` order; in particular, of two entries
at the same offset the one with smaller `final_size` — e.g. a zero-length
entry versus a nonzero one — comes first. -/
theorem sortedEntries_order (db : DB) (blobID : Bytes) :
    (sortedEntries db blobID).Perm
      (db.blob_entries.filter (fun e => e.blob_id == blobID)) ∧
    List.Sorted entryLE (sortedEntries db blobID) ∧
    (∀ i j (hi : i < (sortedEntries db blobID).length)
        (hj : j < (sortedEntries db blobID).length), i < j →
      ((sortedEntries db blobID).get ⟨i, hi⟩).offset =
        ((sortedEntries db blobID).get ⟨j, hj⟩).offset →
      ((sortedEntries db blobID).get ⟨i, hi⟩).final_size ≤
        ((sortedEntries db blobID).get ⟨j, hj⟩).final_size) := by
  refine ⟨List.perm_insertionSort _ _, List.sorted_insertionSort _ _, ?_⟩
  intro i j hi hj hij hoff
  have hp : List.Sorted entryLE (sortedEntries db blobID) :=
    List.sorted_insertionSort _ _
  have hrel := (List.pairwise_iff_get.mp hp) ⟨i, hi⟩ ⟨j, hj⟩ hij
  rcases hrel with hlt | ⟨heq, hle⟩
  · omega
  · exact hle

/-- The entry table of the C5 witness: a nonzero entry listed before a
zero-length entry at the same offset. -/
def wSortDB : DB :=
  ⟨[], [],
    [⟨[1], [9], 5, 0, "", [3]⟩, ⟨[4], [9], 0, 0, "", [3]⟩], [], []⟩

/-- Witness for C5: the zero-length entry at offset 0 sorts before the
5-byte entry at offset 0, and the theorem yields the size comparison. -/
theorem sortedEntries_order_witness :
    (sortedEntries wSortDB [9]).map (fun e => (e.offset, e.final_size)) =
      [(0, 0), (0, 5)] ∧
    ((sortedEntries wSortDB [9]).get ⟨0, by decide⟩).final_size ≤
      ((sortedEntries wSortDB [9]).get ⟨1, by decide⟩).final_size :=
  ⟨by decide,
    (sortedEntries_order wSortDB [9]).2.2 0 1 (by decide) (by decide)
      (by decide) (by decide)⟩

theorem mem_catJoinRows {db : DB} {h : Bytes} {r : CatRow}
    (hr : r ∈ catJoinRows db h) :
    ∃ e ∈ db.blob_entries, ∃ b ∈ db.blobs,
      e.hash = h ∧ b.blob_id = e.blob_id ∧ r.key = b.encryption_key ∧
      r.offset = e.offset ∧ r.blob_id = e.blob_id := by
  simp only [catJoinRows, List.mem_flatMap, List.mem_filter, List.mem_map,
    beq_iff_eq] at hr
  obtain ⟨e, ⟨he, heh⟩, b, ⟨hbm, hbb⟩, p, ⟨hpm, hpb⟩, s, ⟨hsm, hss⟩, rfl⟩ := hr
  exact ⟨e, he, b, hbm, heh, hbb, rfl, rfl, rfl⟩

/-- C6: under the packer invariant that each entry row records the
same key as the single `encryption_key` of its owning blob row (with `blobs`
and `blob_entries` primary keys unique), the key the retrieval path
decrypts with (the blob `encryption_key` joined into the selected row)
equals the per-entry key the paranoia path reads from `blob_entries`, so
both paths applied to the same stored bytes produce the same plaintext. -/
theorem cat_paranoia_key_agreement (ks : Bytes → Nat → Nat) (db : DB)
    (h : Bytes) (r : CatRow) (e : EntryRow) (enc : Bytes)
    (hkeys : entryKeysConsistent db)
    (hhu : entryHashUnique db)
    (hq : catQuery db h = some r)
    (he : e ∈ db.blob_entries) (heh : e.hash = h) :
    r.key = e.key ∧
    decryptBlobEntry ks r.key r.offset enc =
      decryptBlobEntry ks e.key e.offset enc := by
  have hmem : r ∈ catJoinRows db h := by
    have hperm := List.perm_insertionSort catRowLE (catJoinRows db h)
    rw [catQuery] at hq
    exact hperm.subset (head?_mem hq)
  obtain ⟨e2, he2, b, hbm, he2h, hbb, hrk, hro, hrb⟩ := mem_catJoinRows hmem
  have hee : e2 = e := hhu e2 he2 e he (by rw [he2h, heh])
  subst hee
  have hk := hkeys e2 he2 b hbm hbb
  refine ⟨by rw [hrk, ← hk], ?_⟩
  rw [hrk, ← hk, hro]

/-- Witness for C6 on `wOneDB`, where the key of the single entry equals
the key of its blob. -/
theorem cat_paranoia_key_agreement_witness :
    wOneRow.key = (⟨[2], [3], 2, 0, "", [5]⟩ : EntryRow).key ∧
    decryptBlobEntry (fun _ _ => 0) wOneRow.key wOneRow.offset [3, 4] =
      decryptBlobEntry (fun _ _ => 0) (⟨[2], [3], 2, 0, "", [5]⟩ : EntryRow).key
        (⟨[2], [3], 2, 0, "", [5]⟩ : EntryRow).offset [3, 4] :=
  cat_paranoia_key_agreement (fun _ _ => 0) wOneDB [2] wOneRow
    ⟨[2], [3], 2, 0, "", [5]⟩ [3, 4]
    (by decide) (by decide) (by decide) (by decide) (by decide)

end GB
